import Mathlib

/-
Verification of the Apollo.io MCP bridge (apollo-client.ts and the server
dispatcher). The TypeScript source operates on loosely-typed JSON values, so
the embedding is built on a JS-value type `JVal` with JS truthiness, property
lookup, and property assignment. HTTP calls are modelled by an explicit
`HttpOutcome` parameter: either a resolved response (axios resolves only 2xx
statuses under its default `validateStatus`) carrying `status`, `statusText`
and parsed `data`, or a rejection carrying the optional `response.status`,
optional `response.statusText` and the error `message`. Only `console.error`
output is modelled (as a list of log lines); `console.log` tracing is not.
-/

namespace Apollo

/-- JSON-ish JavaScript values: `undefined` models `undefined`, numbers are
modelled as integers (all numeric values in this code are integral). -/
inductive JVal where
  | undefined
  | null
  | bool (b : Bool)
  | num (n : Int)
  | str (s : String)
  | arr (xs : List JVal)
  | obj (fields : List (String × JVal))

/-- JavaScript truthiness of a value. -/
def truthy : JVal → Bool
  | .undefined => false
  | .null => false
  | .bool b => b
  | .num n => n != 0
  | .str s => s != ""
  | .arr _ => true
  | .obj _ => true

/-- First-match lookup in an object's field list; `undefined` when absent
(JS property access on an object without the property). -/
def lookupField : List (String × JVal) → String → JVal
  | [], _ => .undefined
  | (k, v) :: rest, key => if k = key then v else lookupField rest key

/-- JS property read `v[key]`. On non-objects the properties used by this
code are absent, so the read yields `undefined`; reads on `null`/`undefined`
throw in JS and are modelled explicitly at the call sites where they can
occur. -/
def getField (v : JVal) (key : String) : JVal :=
  match v with
  | .obj fs => lookupField fs key
  | _ => .undefined

/-- JS property assignment on a field list: overwrites in place (keeping the
key's position, as JS objects do) or appends a new field at the end. -/
def setFields : List (String × JVal) → String → JVal → List (String × JVal)
  | [], key, v => [(key, v)]
  | (k, w) :: rest, key, v =>
    if k = key then (k, v) :: rest else (k, w) :: setFields rest key v

/-- JS property assignment `o[key] = v` (no-op on non-objects; the callers
below only assign on objects). -/
def setField (o : JVal) (key : String) (v : JVal) : JVal :=
  match o with
  | .obj fs => .obj (setFields fs key v)
  | v0 => v0

/-- JS strict equality `===` restricted to the way this code uses it:
primitive values compare by value; arrays and objects compare by reference,
and the two operands at every comparison site in this code are always
distinct freshly-produced values, so the reference comparison is `false`. -/
def jsEq : JVal → JVal → Bool
  | .undefined, .undefined => true
  | .null, .null => true
  | .bool a, .bool b => a == b
  | .num a, .num b => a == b
  | .str a, .str b => a == b
  | _, _ => false

/-! ## stripUrl (apollo-client.ts)

`stripUrl` removes a leading `http://` or `https://` (the case-sensitive
regex `^https?:\/\/`), then a leading `www.`, then one trailing `/`, and
finally lower-cases the result. The `try`/`catch` around these string
operations can never fire on a string input, so the function is total. -/

/-- Strip the regex `^https?:\/\/` match, if any. -/
def stripProto (cs : List Char) : List Char :=
  if cs.take 8 = "https://".data then cs.drop 8
  else if cs.take 7 = "http://".data then cs.drop 7
  else cs

/-- Strip the regex `^www\.` match, if any. -/
def stripWww (cs : List Char) : List Char :=
  if cs.take 4 = "www.".data then cs.drop 4 else cs

/-- Strip the regex `\/$` match (one trailing slash), if any. -/
def stripSlash (cs : List Char) : List Char :=
  if cs.getLast? = some '/' then cs.dropLast else cs

/-- `toLowerCase`. -/
def toLowerL (cs : List Char) : List Char := cs.map Char.toLower

/-- The body of `stripUrl` on a string: strip protocol, strip `www.`,
strip one trailing slash, then lower-case (in that source order). -/
def stripUrlStr (s : String) : String :=
  ⟨toLowerL (stripSlash (stripWww (stripProto s.data)))⟩

/-- Modelled from the spec: the spec states the normalization as
"lower-case the URL, strip a leading http:// or https://, strip a leading
www., strip one trailing /", i.e. with lower-casing applied first. This
definition follows the spec's words for comparison with `stripUrlStr`. -/
def stripUrlSpecStr (s : String) : String :=
  ⟨stripSlash (stripWww (stripProto (toLowerL s.data)))⟩

/-- `stripUrl` lifted to JS values: falsy input (`undefined`, `null`, the
empty string, ...) yields `undefined`; a string is stripped; a truthy
non-string makes `url.replace` throw inside the function's own
`try`/`catch`, which returns the input unchanged. -/
def stripUrlJ (v : JVal) : JVal :=
  if truthy v then
    match v with
    | .str s => .str (stripUrlStr s)
    | w => w
  else .undefined

/-! ## sanitizeRanges (index.ts) -/

/-- Replace the first occurrence of character `c` by `r`
(JS `String.prototype.replace` with a string pattern). -/
def replaceFirstChar : List Char → Char → Char → List Char
  | [], _, _ => []
  | x :: xs, c, r => if x = c then r :: xs else x :: replaceFirstChar xs c r

/-- One element of `sanitizeRanges`'s map: a string containing a hyphen has
its first hyphen replaced by a comma; anything else passes through. -/
def sanitizeRange : JVal → JVal
  | .str s =>
    if s.data.contains '-' then .str ⟨replaceFirstChar s.data '-' ','⟩
    else .str s
  | v => v

/-- `sanitizeRanges`: non-arrays (including falsy values) are returned
unchanged; an array is mapped elementwise through `sanitizeRange`. -/
def sanitizeRanges : JVal → JVal
  | .arr xs => .arr (xs.map sanitizeRange)
  | v => v

/-! ## formatQueryParams (apollo-client.ts)

The formatter iterates over `Object.entries(query)` building a fresh
`formattedParams` object. Array values are pushed one element at a time onto
`formattedParams[key + "[]"]` (created as an empty array when the slot is
falsy); one-level nested objects emit `key[subKey]` entries for each
non-null sub-field; other values are assigned under the unmodified key.
Pushing onto a slot that already holds a truthy non-array value would throw
a `TypeError` in JS, so the model returns `Except`: the error propagates to
the enclosing search operation's `catch`. -/

/-- One `value.forEach` step of the array case: read the slot, create `[]`
if falsy (preserving the slot's position when it already exists), push the
item; a truthy non-array slot has no `push` method. -/
def pushToKey (fs : List (String × JVal)) (key : String) (item : JVal) :
    Except String (List (String × JVal)) :=
  let cur := lookupField fs key
  if truthy cur then
    match cur with
    | .arr xs => .ok (setFields fs key (.arr (xs ++ [item])))
    | _ => .error "formattedParams[paramKey].push is not a function"
  else
    .ok (setFields fs key (.arr [item]))

/-- The body of the nested-object loop: skip `undefined`/`null` sub-values,
otherwise assign the sub-value under `key[subKey]`. -/
def objAssign (key : String) (a : List (String × JVal))
    (sp : String × JVal) : List (String × JVal) :=
  match sp.2 with
  | .undefined => a
  | .null => a
  | sv => setFields a (key ++ "[" ++ sp.1 ++ "]") sv

/-- Processing of a single `[key, value]` entry of the query object. -/
def formatEntryStep (acc : List (String × JVal)) (kv : String × JVal) :
    Except String (List (String × JVal)) :=
  match kv.2 with
  | .undefined => .ok acc
  | .null => .ok acc
  | .arr xs => xs.foldlM (fun a item => pushToKey a (kv.1 ++ "[]") item) acc
  | .obj subs => .ok (subs.foldl (objAssign kv.1) acc)
  | v => .ok (setFields acc kv.1 v)

/-- `formatQueryParams` on the entry list of the query object. -/
def formatQueryParams (q : List (String × JVal)) :
    Except String (List (String × JVal)) :=
  q.foldlM formatEntryStep []

/-- `Object.entries` of a JS value: fields of an object, indexed characters
of a string, empty for other primitives, and a `TypeError` on
`null`/`undefined`. -/
def jsEntriesE : JVal → Except String (List (String × JVal))
  | .obj fs => .ok fs
  | .null => .error "Cannot convert undefined or null to object"
  | .undefined => .error "Cannot convert undefined or null to object"
  | .str s => .ok (List.zip ((List.range s.data.length).map toString)
      (s.data.map (fun c => JVal.str ⟨[c]⟩)))
  | _ => .ok []

/-! ## The query-string reading of a formatted-params object

axios serializes a params object into query entries: a key bound to an
array contributes one entry per element under that key (in order), any
other binding contributes a single entry. This is the "query entries"
notion the spec's flattening properties are stated in. -/

/-- The query entries contributed by one formatted binding. -/
def expandParam : String × JVal → List (String × JVal)
  | (k, .arr xs) => xs.map (fun x => (k, x))
  | (k, v) => [(k, v)]

/-- All query entries of a formatted-params object, in order. -/
def queryEntries (fs : List (String × JVal)) : List (String × JVal) :=
  (fs.map expandParam).flatten

/-! ## HTTP outcomes and the simple client operations -/

/-- The outcome of one axios call: `ok` is a resolved response (axios only
resolves 2xx statuses under its default `validateStatus`), `err` a
rejection with the optional `response.status`, optional
`response.statusText`, and the error `message`. -/
inductive HttpOutcome where
  | ok (status : Nat) (statusText : String) (data : JVal)
  | err (status : Option Nat) (statusText : Option String) (message : String)

/-- Does the outcome resolve with HTTP status exactly 200 (the only case the
simple client operations treat as success)? -/
def isOk200 : HttpOutcome → Bool
  | .ok s _ _ => s == 200
  | .err _ _ _ => false

/-- The `catch` branch's log line:
`Error: ${error.response?.status} - ${error.response?.statusText || error.message}`.
An absent status prints as `undefined`; an absent or empty (falsy)
statusText falls back to the error message. -/
def errLogLine (status : Option Nat) (statusText : Option String)
    (message : String) : String :=
  "Error: " ++ (match status with | some n => toString n | none => "undefined")
    ++ " - "
    ++ (match statusText with
        | some st => if st == "" then message else st
        | none => message)

/-- The shared body of the simple operations: return `response.data` on
status 200; otherwise log and return `null` (the `else` branch logs
`Error: ${response.status} - ${response.statusText}`). The second component
is the list of `console.error` lines. -/
def handle200 : HttpOutcome → JVal × List String
  | .ok s st data =>
    if s = 200 then (data, [])
    else (.null, ["Error: " ++ toString s ++ " - " ++ st])
  | .err s st m => (.null, [errLogLine s st m])

/-- `peopleEnrichment`: POST `/people/match`, body handled by `handle200`. -/
def peopleEnrichment (o : HttpOutcome) : JVal × List String := handle200 o

/-- `bulkPeopleEnrichment`: POST `/people/bulk_match`. -/
def bulkPeopleEnrichment (o : HttpOutcome) : JVal × List String := handle200 o

/-- `organizationEnrichment`: GET `/organizations/enrich`. -/
def organizationEnrichment (o : HttpOutcome) : JVal × List String := handle200 o

/-- Common body of `peopleSearch`/`organizationSearch`: format the query
parameters (a `TypeError` raised while formatting is caught by the
operation's own `catch`, which logs and returns `null`), then POST and
handle the response as in the other operations. -/
def searchVia (args : JVal) (o : HttpOutcome) : JVal × List String :=
  match jsEntriesE args with
  | .error m => (.null, [errLogLine none none m])
  | .ok entries =>
    match formatQueryParams entries with
    | .error m => (.null, [errLogLine none none m])
    | .ok _ => handle200 o

/-- `peopleSearch`: POST `/mixed_people/search` with formatted params. -/
def peopleSearch (args : JVal) (o : HttpOutcome) : JVal × List String :=
  searchVia args o

/-- `organizationSearch`: POST `/mixed_companies/search` with formatted
params. -/
def organizationSearch (args : JVal) (o : HttpOutcome) : JVal × List String :=
  searchVia args o

/-- `organizationJobPostings`: GET `/organizations/{id}/job_postings`; the
identifier only enters the URL. -/
def organizationJobPostings (_organizationId : JVal) (o : HttpOutcome) :
    JVal × List String := handle200 o

/-! ## getPersonEmail (apollo-client.ts) -/

/-- `contacts.map(item => item.email)`: property reads on `null`/`undefined`
elements throw (the first such element wins); other elements yield their
`email` property (`undefined` when absent). -/
def mapEmailsE : List JVal → Except String (List JVal)
  | [] => .ok []
  | .null :: _ => .error "Cannot read properties of null (reading 'email')"
  | .undefined :: _ =>
    .error "Cannot read properties of undefined (reading 'email')"
  | item :: rest => (mapEmailsE rest).map (fun tl => getField item "email" :: tl)

/-- The `try` body of `getPersonEmail`: a falsy Apollo id throws before any
network call; a rejected POST rethrows its message; falsy `response.data`
throws; `(response?.data?.contacts ?? []).map(...)` extracts the email
properties, defaulting a nullish `contacts` to `[]` and throwing when
`contacts` is a truthy non-array. -/
def getPersonEmailE (apolloId : JVal) (o : HttpOutcome) : Except String JVal :=
  if truthy apolloId then
    match o with
    | .err _ _ m => .error m
    | .ok _ _ data =>
      if truthy data then
        let contacts := match getField data "contacts" with
          | .null => JVal.arr []
          | .undefined => JVal.arr []
          | c => c
        match contacts with
        | .arr xs => (mapEmailsE xs).map JVal.arr
        | _ => .error "(intermediate value).map is not a function"
      else .error "No data received from Apollo API"
  else .error "Apollo ID is required"

/-- `getPersonEmail`: the `catch` logs
`Error getting person email: ${error.message}` and returns `null`. -/
def getPersonEmail (apolloId : JVal) (o : HttpOutcome) : JVal × List String :=
  match getPersonEmailE apolloId o with
  | .ok v => (v, [])
  | .error m => (.null, ["Error getting person email: " ++ m])

/-! ## employeesOfCompany (apollo-client.ts) -/

/-- The argument object of `employeesOfCompany`, as the five properties the
function destructures or reads from its loosely-typed query. -/
structure EocQuery where
  company : JVal := .undefined
  website_url : JVal := .undefined
  linkedin_url : JVal := .undefined
  person_seniorities : JVal := .undefined
  contact_email_status : JVal := .undefined

/-- The filter callback on one organization candidate: keep the candidate
when the caller supplied a LinkedIn URL, the candidate has one, and their
stripped forms are strictly equal; else likewise for the website URL. -/
def matchesOrg (strippedLinkedinUrl strippedWebsiteUrl : JVal)
    (item : JVal) : Bool :=
  let companyLinkedin := stripUrlJ (getField item "linkedin_url")
  let companyWebsite := stripUrlJ (getField item "website_url")
  if truthy strippedLinkedinUrl && truthy companyLinkedin
      && jsEq companyLinkedin strippedLinkedinUrl then true
  else if truthy strippedWebsiteUrl && truthy companyWebsite
      && jsEq companyWebsite strippedWebsiteUrl then true
  else false

/-- `organizations.filter(...)`: the callback reads properties of each
element in order, so a `null`/`undefined` element throws at its position. -/
def filterOrgsE (sl sw : JVal) : List JVal → Except String (List JVal)
  | [] => .ok []
  | .null :: _ =>
    .error "Cannot read properties of null (reading 'linkedin_url')"
  | .undefined :: _ =>
    .error "Cannot read properties of undefined (reading 'linkedin_url')"
  | item :: rest =>
    (filterOrgsE sl sw rest).map (fun tl =>
      if matchesOrg sl sw item then item :: tl else tl)

/-- Candidate selection: the first filtered candidate when the filter kept
any, otherwise the first candidate of the original search order. -/
def chooseCompanyE (sl sw : JVal) (orgs : List JVal) : Except String JVal :=
  (filterOrgsE sl sw orgs).map (fun companyObjs =>
    if companyObjs.length > 0 then companyObjs.headD .undefined
    else orgs.headD .undefined)

/-- `(s ?? "").split(",").map(item => item.trim())` as a JS array value. -/
def splitTrim (s : String) : JVal :=
  .arr ((s.split (fun c => c = ',')).map (fun t => .str t.trim))

/-- Conditionally extend the people-search payload from an optional
comma-separated filter: a falsy filter adds nothing; a truthy string is
split and trimmed; a truthy non-string has no `split` method. -/
def addSplitField (fs : List (String × JVal)) (key : String) (v : JVal)
    (errMsg : String) : Except String (List (String × JVal)) :=
  if truthy v then
    match v with
    | .str s => .ok (setFields fs key (splitTrim s))
    | _ => .error errMsg
  else .ok fs

/-- The `try` body of `employeesOfCompany`. The first component records the
people-search payload if and when that second request is issued (`none`
means no people-search call was made); the second is the body's outcome,
`.error` being a thrown exception. Mirrors the source line by line:
missing company name; organization search; falsy `data`;
`data.organizations` (a `length` read on `null`/`undefined` throws, a
non-array later fails at `.filter`); the zero-candidate check; candidate
filtering and selection; the missing-id check; payload construction with
the optional seniority and email-status filters; the people search; falsy
people `data`; and `peopleResponse.data.people || []`. -/
def employeesOfCompanyAux (q : EocQuery) (orgO pO : HttpOutcome) :
    Option JVal × Except String JVal :=
  if truthy q.company then
    let sw := stripUrlJ q.website_url
    let sl := stripUrlJ q.linkedin_url
    match orgO with
    | .err _ _ m => (none, .error m)
    | .ok _ _ data =>
      if truthy data then
        match getField data "organizations" with
        | .null =>
          (none, .error "Cannot read properties of null (reading 'length')")
        | .undefined =>
          (none,
           .error "Cannot read properties of undefined (reading 'length')")
        | .arr orgs =>
          if orgs.length = 0 then (none, .error "No organizations found")
          else
            match chooseCompanyE sl sw orgs with
            | .error m => (none, .error m)
            | .ok companyObj =>
              let companyId := getField companyObj "id"
              if truthy companyId then
                let base : List (String × JVal) :=
                  [("organization_ids", .arr [companyId]),
                   ("page", .num 1), ("limit", .num 100)]
                match addSplitField base "person_titles" q.person_seniorities
                    "query.person_seniorities.split is not a function" with
                | .error m => (none, .error m)
                | .ok fs1 =>
                  match addSplitField fs1 "contact_email_status_v2"
                      q.contact_email_status
                      "query.contact_email_status.split is not a function" with
                  | .error m => (none, .error m)
                  | .ok fs2 =>
                    let payload := JVal.obj fs2
                    match pO with
                    | .err _ _ m => (some payload, .error m)
                    | .ok _ _ pdata =>
                      if truthy pdata then
                        let people := getField pdata "people"
                        (some payload,
                         .ok (if truthy people then people else .arr []))
                      else
                        (some payload,
                         .error "No data received from Apollo API")
              else (none, .error "Could not determine company ID")
        | .str s =>
          if s.length = 0 then (none, .error "No organizations found")
          else (none, .error "organizations.filter is not a function")
        | _ => (none, .error "organizations.filter is not a function")
      else (none, .error "No data received from Apollo API")
  else (none, .error "Company name is required")

/-- The observable run of `employeesOfCompany`: its return value, its
`console.error` lines, and the people-search payload when that request was
issued. -/
structure EocRun where
  result : JVal
  errLog : List String
  peoplePayload : Option JVal

/-- `employeesOfCompany`: the `catch` logs
`Error finding employees: ${error.message}` and returns `null`. -/
def employeesOfCompany (q : EocQuery) (orgO pO : HttpOutcome) : EocRun :=
  match employeesOfCompanyAux q orgO pO with
  | (pl, .ok v) => ⟨v, [], pl⟩
  | (pl, .error m) => ⟨.null, ["Error finding employees: " ++ m], pl⟩

/-! ## JSON.stringify(result, null, 2)

The dispatcher serializes every operation result with
`JSON.stringify(result, null, 2)`: two-space indentation, object fields in
insertion order, `undefined` array elements printed as `null`, `undefined`
object fields dropped, and no output at all (the value `undefined`) for a
top-level `undefined` — which no operation ever returns. -/

/-- JSON string quoting of the characters that can occur here. -/
def escapeJsonChar (c : Char) : List Char :=
  if c = '"' then ['\\', '"']
  else if c = '\\' then ['\\', '\\']
  else if c = '\n' then ['\\', 'n']
  else if c = '\t' then ['\\', 't']
  else if c = '\r' then ['\\', 'r']
  else [c]

/-- Quote a string as a JSON string literal. -/
def quoteJson (s : String) : String :=
  "\"" ++ ⟨s.data.foldr (fun c acc => escapeJsonChar c ++ acc) []⟩ ++ "\""

/-- `n` spaces of indentation. -/
def indentStr (n : Nat) : String := ⟨List.replicate n ' '⟩

mutual

/-- `JSON.stringify(v, null, 2)` at nesting level `lvl`; `none` is the
JS value `undefined` (returned only for a top-level `undefined`). -/
def stringifyAt : Nat → JVal → Option String
  | _, .undefined => none
  | _, .null => some "null"
  | _, .bool b => some (if b then "true" else "false")
  | _, .num n => some (toString n)
  | _, .str s => some (quoteJson s)
  | lvl, .arr xs =>
    match xs with
    | [] => some "[]"
    | _ => some ("[\n" ++ indentStr ((lvl + 1) * 2)
        ++ String.intercalate (",\n" ++ indentStr ((lvl + 1) * 2))
            (stringifyItems (lvl + 1) xs)
        ++ "\n" ++ indentStr (lvl * 2) ++ "]")
  | lvl, .obj fs =>
    match stringifyFields (lvl + 1) fs with
    | [] => some "\x7b\x7d"
    | items => some ("\x7b\n" ++ indentStr ((lvl + 1) * 2)
        ++ String.intercalate (",\n" ++ indentStr ((lvl + 1) * 2)) items
        ++ "\n" ++ indentStr (lvl * 2) ++ "\x7d")

/-- Array elements: `undefined` prints as `null`. -/
def stringifyItems : Nat → List JVal → List String
  | _, [] => []
  | lvl, x :: xs => (stringifyAt lvl x).getD "null" :: stringifyItems lvl xs

/-- Object fields: fields whose value stringifies to nothing are dropped. -/
def stringifyFields : Nat → List (String × JVal) → List String
  | _, [] => []
  | lvl, (k, v) :: fs =>
    match stringifyAt lvl v with
    | none => stringifyFields lvl fs
    | some sv => (quoteJson k ++ ": " ++ sv) :: stringifyFields lvl fs

end

/-- Top-level stringification as used in the dispatcher's `text:` field.
No operation result is ever the value `undefined`, so the default is
unreachable through the dispatcher. -/
def stringifyTop (v : JVal) : String := (stringifyAt 0 v).getD "undefined"

/-! ## The dispatcher (index.ts, CallToolRequestSchema handler) -/

/-- One `HttpOutcome` per upstream endpoint the request handler can hit. -/
structure ApiEnv where
  peopleMatch : HttpOutcome
  bulkMatch : HttpOutcome
  orgEnrich : HttpOutcome
  peopleSearchHttp : HttpOutcome
  orgSearchHttp : HttpOutcome
  jobPostings : HttpOutcome
  prospects : HttpOutcome
  eocOrgSearch : HttpOutcome
  eocPeopleSearch : HttpOutcome

/-- The properties `employeesOfCompany` reads off the argument bag. -/
def toEocQuery (args : JVal) : EocQuery :=
  ⟨getField args "company", getField args "website_url",
   getField args "linkedin_url", getField args "person_seniorities",
   getField args "contact_email_status"⟩

/-- The pre-switch sanitization: only for the tool name
`organization_search`, and only when `args.organization_num_employees_ranges`
is truthy, that property is replaced by its `sanitizeRanges` image. -/
def preprocessArgs (name : String) (args : JVal) : JVal :=
  if name == "organization_search"
      && truthy (getField args "organization_num_employees_ranges") then
    setField args "organization_num_employees_ranges"
      (sanitizeRanges (getField args "organization_num_employees_ranges"))
  else args

/-- The `try` body of the call-tool handler: `.ok text` is the successful
response text, `.error m` an exception with message `m` thrown inside the
`try` (the bulk-details validation error, or the `McpError` of the
`default` branch, whose `message` the MCP SDK formats as
`MCP error <code>: <text>` with `ErrorCode.MethodNotFound = -32601`). -/
def tryCallTool (env : ApiEnv) (name : String) (rawArgs : Option JVal) :
    Except String String :=
  let args0 := rawArgs.getD (.obj [])
  let args := preprocessArgs name args0
  if name == "bulk_people_enrichment" then
    match getField args "details" with
    | .arr _ => .ok (stringifyTop (bulkPeopleEnrichment env.bulkMatch).1)
    | _ => .error "The 'details' array is required for bulk people enrichment"
  else if name == "people_enrichment" then
    .ok (stringifyTop (peopleEnrichment env.peopleMatch).1)
  else if name == "organization_enrichment" then
    .ok (stringifyTop (organizationEnrichment env.orgEnrich).1)
  else if name == "people_search" then
    .ok (stringifyTop (peopleSearch args env.peopleSearchHttp).1)
  else if name == "organization_search" then
    .ok (stringifyTop (organizationSearch args env.orgSearchHttp).1)
  else if name == "organization_job_postings" then
    .ok (stringifyTop
      (organizationJobPostings (getField args "organization_id")
        env.jobPostings).1)
  else if name == "get_person_email" then
    .ok (stringifyTop
      (getPersonEmail (getField args "apollo_id") env.prospects).1)
  else if name == "employees_of_company" then
    .ok (stringifyTop
      (employeesOfCompany (toEocQuery args) env.eocOrgSearch
        env.eocPeopleSearch).result)
  else
    .error ("MCP error -32601: Unknown tool: " ++ name)

/-- What the handler hands back to the host protocol runtime: either a data
response (a text payload with its error flag — absent in the source's
success branches, modelled as `false`), or a protocol-level error
(a thrown `McpError` escaping the handler). -/
inductive DispatchResult where
  | response (text : String) (isError : Bool)
  | protocolError (code : Int) (message : String)
deriving DecidableEq

/-- The full call-tool handler: everything thrown inside the `try` —
including the `default` branch's `McpError` — is caught and converted into
an error-flagged text response prefixed `Apollo.io API error: `. -/
def handleCallTool (env : ApiEnv) (name : String) (rawArgs : Option JVal) :
    DispatchResult :=
  match tryCallTool env name rawArgs with
  | .ok t => .response t false
  | .error m => .response ("Apollo.io API error: " ++ m) true

/-! ## Auxiliary predicates and characterizations used in the statements -/

/-- Is the value the JS `null` or `undefined` (a property read on it
throws)? -/
def nullish : JVal → Bool
  | .null => true
  | .undefined => true
  | _ => false

/-- Is the value a JS scalar for the purposes of the formatter (neither
nullish nor an array nor an object)? -/
def scalarJV : JVal → Bool
  | .bool _ => true
  | .num _ => true
  | .str _ => true
  | _ => false

/-- Either a string or falsy: the argument shapes under which the optional
comma-separated filters of `employeesOfCompany` do not throw. -/
def strOrFalsy : JVal → Bool
  | .str _ => true
  | v => !truthy v

/-- The keys of a field list, in order. -/
def keysOf (fs : List (String × JVal)) : List String := fs.map Prod.fst

/-- A key with no `[` character — every key of the documented filter
schemas is of this form. -/
def keyOK (s : String) : Bool := decide ('[' ∉ s.data)

/-- The sub-fields of a value when it is an object, else `[]`. -/
def subsOf : JVal → List (String × JVal)
  | .obj subs => subs
  | _ => []

/-- A well-formed filter object, the shape every documented search filter
takes: keys are pairwise distinct and bracket-free, and nested objects have
pairwise-distinct, non-empty sub-keys. -/
def WFFilter (q : List (String × JVal)) : Prop :=
  (keysOf q).Nodup
  ∧ (∀ p ∈ q, keyOK p.1 = true)
  ∧ (∀ p ∈ q, (keysOf (subsOf p.2)).Nodup ∧ ∀ sp ∈ subsOf p.2, sp.1 ≠ "")

instance (q : List (String × JVal)) : Decidable (WFFilter q) := by
  unfold WFFilter; infer_instance

/-- The formatted bindings contributed by one entry of a well-formed query
object (the per-entry reading of the formatter's loop body): nullish values
contribute nothing, a non-empty array contributes its single `key[]`
binding, a nested object one `key[sub]` binding per non-nullish sub-field,
and a scalar its unmodified binding. -/
def formatEntry : String × JVal → List (String × JVal)
  | (_, .undefined) => []
  | (_, .null) => []
  | (k, .arr xs) => match xs with
    | [] => []
    | _ => [(k ++ "[]", .arr xs)]
  | (k, .obj subs) => subs.filterMap (fun sp =>
      match sp.2 with
      | .undefined => none
      | .null => none
      | sv => some (k ++ "[" ++ sp.1 ++ "]", sv))
  | (k, v) => [(k, v)]

/-- The concatenation of all per-entry contributions, in entry order. -/
def flatAll (q : List (String × JVal)) : List (String × JVal) :=
  (q.map formatEntry).flatten

/-- An environment whose every request resolves with `200 OK` and a `null`
body; used to instantiate dispatcher facts that do not depend on the
upstream responses. -/
def okNullEnv : ApiEnv :=
  ⟨.ok 200 "OK" .null, .ok 200 "OK" .null, .ok 200 "OK" .null,
   .ok 200 "OK" .null, .ok 200 "OK" .null, .ok 200 "OK" .null,
   .ok 200 "OK" .null, .ok 200 "OK" .null, .ok 200 "OK" .null⟩

/-! # Theorems -/

/-! ## Association-list helper lemmas -/

theorem lookupField_of_not_mem {fs : List (String × JVal)} {k : String}
    (h : k ∉ keysOf fs) : lookupField fs k = .undefined := by
  induction fs with
  | nil => rfl
  | cons p rest ih =>
    simp only [keysOf, List.map_cons, List.mem_cons, not_or] at h
    cases p with
    | mk pk pv =>
      simp only [lookupField]
      rw [if_neg (by simpa using (Ne.symm h.1)), ih (by simpa [keysOf] using h.2)]

theorem setFields_of_not_mem {fs : List (String × JVal)} {k : String}
    (v : JVal) (h : k ∉ keysOf fs) : setFields fs k v = fs ++ [(k, v)] := by
  induction fs with
  | nil => rfl
  | cons p rest ih =>
    simp only [keysOf, List.map_cons, List.mem_cons, not_or] at h
    cases p with
    | mk pk pv =>
      simp only [setFields]
      rw [if_neg (by simpa using (Ne.symm h.1)), ih (by simpa [keysOf] using h.2)]
      simp

theorem lookupField_setFields_self (fs : List (String × JVal))
    (k : String) (v : JVal) : lookupField (setFields fs k v) k = v := by
  induction fs with
  | nil => simp [setFields, lookupField]
  | cons p rest ih =>
    cases p with
    | mk pk pv =>
      by_cases hpk : pk = k
      · simp [setFields, lookupField, hpk]
      · simp [setFields, lookupField, hpk, ih]

theorem lookupField_setFields_ne (fs : List (String × JVal))
    {k k2 : String} (v : JVal) (h : k2 ≠ k) :
    lookupField (setFields fs k v) k2 = lookupField fs k2 := by
  induction fs with
  | nil => simp [setFields, lookupField, Ne.symm h]
  | cons p rest ih =>
    cases p with
    | mk pk pv =>
      by_cases hpk : pk = k
      · subst hpk
        simp [setFields, lookupField, Ne.symm h]
      · simp [setFields, lookupField, hpk, ih]

theorem lookupField_of_mem_nodup {fs : List (String × JVal)} {k : String}
    {v : JVal} (hnd : (keysOf fs).Nodup) (hm : (k, v) ∈ fs) :
    lookupField fs k = v := by
  induction fs with
  | nil => cases hm
  | cons p rest ih =>
    cases p with
    | mk pk pv =>
      simp only [keysOf, List.map_cons, List.nodup_cons] at hnd
      rcases List.mem_cons.mp hm with h | h
      · cases h
        simp [lookupField]
      · have hne : pk ≠ k := by
          intro he
          subst he
          exact hnd.1 (by simpa [keysOf] using List.mem_map_of_mem Prod.fst h)
        simp [lookupField, hne, ih (by simpa [keysOf] using hnd.2) h]

theorem lookupField_append_of_not_mem {fs : List (String × JVal)}
    {k : String} (tl : List (String × JVal)) (h : k ∉ keysOf fs) :
    lookupField (fs ++ tl) k = lookupField tl k := by
  induction fs with
  | nil => rfl
  | cons p rest ih =>
    simp only [keysOf, List.map_cons, List.mem_cons, not_or] at h
    cases p with
    | mk pk pv =>
      simp only [List.cons_append, lookupField, List.append_eq]
      rw [if_neg (by simpa using (Ne.symm h.1)), ih (by simpa [keysOf] using h.2)]

theorem setFields_append_of_not_mem {fs : List (String × JVal)}
    {k : String} (tl : List (String × JVal)) (v : JVal)
    (h : k ∉ keysOf fs) :
    setFields (fs ++ tl) k v = fs ++ setFields tl k v := by
  induction fs with
  | nil => rfl
  | cons p rest ih =>
    simp only [keysOf, List.map_cons, List.mem_cons, not_or] at h
    cases p with
    | mk pk pv =>
      simp only [List.cons_append, setFields, List.append_eq]
      rw [if_neg (by simpa using (Ne.symm h.1)), ih (by simpa [keysOf] using h.2)]

/-! ## The failure behavior of the simple operations (C1) -/

theorem handle200_fail {o : HttpOutcome} (h : isOk200 o = false) :
    (handle200 o).1 = JVal.null ∧ (handle200 o).2 ≠ [] := by
  cases o with
  | ok s st d =>
    simp only [isOk200, beq_eq_false_iff_ne, ne_eq] at h
    simp [handle200, h]
  | err s st m => simp [handle200]

/-- C1: the claim states that a non-2xx response or transport failure yields
a failure result distinct from success-with-payload and carrying the status
code and message. In the code every failure path returns the same `null`:
two failures with different status codes produce identical results, and the
failure result coincides with a successful 200 response whose payload is
JSON `null`, so the result can carry neither the status code nor the
message. -/
theorem C1_counterexample :
    (peopleEnrichment
        (.err (some 404) (some "Not Found")
          "Request failed with status code 404")).1
      = (peopleEnrichment
          (.err (some 500) (some "Internal Server Error")
            "Request failed with status code 500")).1
    ∧ (peopleEnrichment
          (.err (some 404) (some "Not Found")
            "Request failed with status code 404")).1
      = (peopleEnrichment (.ok 200 "OK" JVal.null)).1 :=
  ⟨rfl, rfl⟩

/-- C1 (amended): for every Upstream Client operation, a non-200 HTTP
response or a transport failure yields a `null` result — the same `null`
for every failure — and the upstream status code and message (or the
transport error text) are written to the console error log rather than
carried in the result. Shown for the two operations the claim cites. -/
theorem C1_amended_failures_yield_null (o : HttpOutcome)
    (h : isOk200 o = false) :
    (peopleEnrichment o).1 = JVal.null ∧ (peopleEnrichment o).2 ≠ []
    ∧ ∀ args, (organizationSearch args o).1 = JVal.null
        ∧ (organizationSearch args o).2 ≠ [] := by
  refine ⟨(handle200_fail h).1, (handle200_fail h).2, ?_⟩
  intro args
  unfold organizationSearch searchVia
  rcases hje : jsEntriesE args with m | entries <;> simp [hje]
  rcases hfq : formatQueryParams entries with m2 | fs <;> simp [hfq]
  exact handle200_fail h

theorem C1_witness :
    isOk200 (.err (some 429) (some "Too Many Requests")
        "Request failed with status code 429") = false
    ∧ (peopleEnrichment (.err (some 429) (some "Too Many Requests")
        "Request failed with status code 429")).1 = JVal.null :=
  ⟨rfl,
    (C1_amended_failures_yield_null
      (.err (some 429) (some "Too Many Requests")
        "Request failed with status code 429") rfl).1⟩

/-! ## The dispatcher's handling of unknown tools and exceptions (C2, C3) -/

/-- C2: the claim states that an unregistered tool name is reported as a
protocol-level "method not found" condition to the host runtime. In the
code the `default` branch's `McpError` is thrown inside the handler's own
`try`, whose `catch` converts every exception into an error-flagged data
response; the host runtime therefore receives a data response whose text
embeds the method-not-found diagnostic, not a protocol error. -/
theorem C2_unknown_tool_yields_data_error :
    handleCallTool okNullEnv "bogus_tool" none =
      .response "Apollo.io API error: MCP error -32601: Unknown tool: bogus_tool"
        true := by
  rfl

/-- C3: every exception thrown inside the call-tool handler's `try` —
argument validation or anything else — is caught and converted to an
error-flagged response whose text is `Apollo.io API error: ` followed by
the exception's message, and the handler always hands the host runtime a
data response (never a protocol error, never an uncaught exception). -/
theorem C3_dispatcher_catches_all :
    (∀ env name rawArgs, ∃ t b, handleCallTool env name rawArgs = .response t b)
    ∧ (∀ env name rawArgs m, tryCallTool env name rawArgs = .error m →
        handleCallTool env name rawArgs =
          .response ("Apollo.io API error: " ++ m) true) := by
  constructor
  · intro env name rawArgs
    unfold handleCallTool
    cases tryCallTool env name rawArgs with
    | ok t => exact ⟨t, false, rfl⟩
    | error m => exact ⟨"Apollo.io API error: " ++ m, true, rfl⟩
  · intro env name rawArgs m h
    unfold handleCallTool
    rw [h]

theorem C3_witness :
    tryCallTool okNullEnv "bulk_people_enrichment" (some (.obj [])) =
      .error "The 'details' array is required for bulk people enrichment"
    ∧ handleCallTool okNullEnv "bulk_people_enrichment" (some (.obj [])) =
      .response
        "Apollo.io API error: The 'details' array is required for bulk people enrichment"
        true :=
  ⟨rfl, C3_dispatcher_catches_all.2 okNullEnv "bulk_people_enrichment"
    (some (.obj [])) "The 'details' array is required for bulk people enrichment" rfl⟩

/-! ## Null results and their serialization (C4) -/

theorem stringifyTop_null : stringifyTop JVal.null = "null" := by
  simp [stringifyTop, stringifyAt]

theorem handleCallTool_people_enrichment (env : ApiEnv)
    (rawArgs : Option JVal) :
    handleCallTool env "people_enrichment" rawArgs =
      .response (stringifyTop (peopleEnrichment env.peopleMatch).1) false := rfl

/-- C4: every Upstream Client operation returns `null` to its caller on any
failure it encounters — HTTP or transport failure, or its own
missing-required-input check (missing company name, missing Apollo ID) —
instead of raising, and the dispatcher serializes that `null` as a
non-error `"null"` text payload, indistinguishable from the payload of a
successful `null` result. -/
theorem C4_failures_become_null_payloads :
    (∀ o, isOk200 o = false → (peopleEnrichment o).1 = JVal.null)
    ∧ (∀ apolloId o, truthy apolloId = false →
        (getPersonEmail apolloId o).1 = JVal.null)
    ∧ (∀ q orgO pO, truthy q.company = false →
        (employeesOfCompany q orgO pO).result = JVal.null
        ∧ (employeesOfCompany q orgO pO).peoplePayload = none)
    ∧ (∀ envA envB : ApiEnv, ∀ rawArgs,
        isOk200 envA.peopleMatch = false →
        envB.peopleMatch = .ok 200 "OK" JVal.null →
        handleCallTool envA "people_enrichment" rawArgs
            = .response "null" false
        ∧ handleCallTool envA "people_enrichment" rawArgs
            = handleCallTool envB "people_enrichment" rawArgs) := by
  refine ⟨?_, ?_, ?_, ?_⟩
  · intro o h
    exact (handle200_fail h).1
  · intro apolloId o h
    unfold getPersonEmail getPersonEmailE
    simp [h]
  · intro q orgO pO h
    unfold employeesOfCompany employeesOfCompanyAux
    simp [h]
  · intro envA envB rawArgs hA hB
    have h1 : handleCallTool envA "people_enrichment" rawArgs
        = .response "null" false := by
      rw [handleCallTool_people_enrichment,
        show (peopleEnrichment envA.peopleMatch).1 = JVal.null from
          (handle200_fail hA).1,
        stringifyTop_null]
    have h2 : handleCallTool envB "people_enrichment" rawArgs
        = .response "null" false := by
      rw [handleCallTool_people_enrichment, hB]
      exact congrArg (fun t => DispatchResult.response t false) stringifyTop_null
    exact ⟨h1, h1.trans h2.symm⟩

theorem C4_witness :
    isOk200 (HttpOutcome.err none none "getaddrinfo ENOTFOUND api.apollo.io")
        = false
    ∧ (peopleEnrichment
        (.err none none "getaddrinfo ENOTFOUND api.apollo.io")).1 = JVal.null :=
  ⟨rfl, C4_failures_become_null_payloads.1
    (.err none none "getaddrinfo ENOTFOUND api.apollo.io") rfl⟩

/-! ## Range normalization and its scope (C7) -/

theorem replaceFirstChar_append {a : List Char} (b : List Char)
    (h : '-' ∉ a) :
    replaceFirstChar (a ++ '-' :: b) '-' ',' = a ++ ',' :: b := by
  induction a with
  | nil => simp [replaceFirstChar]
  | cons x xs ih =>
    simp only [List.mem_cons, not_or] at h
    simp [replaceFirstChar, Ne.symm h.1, ih h.2]

theorem getField_setField_ne (args : JVal) {k key : String} (v : JVal)
    (h : k ≠ key) :
    getField (setField args key v) k = getField args k := by
  cases args <;> simp [setField, getField]
  exact lookupField_setFields_ne _ _ h

/-- C7: range-string normalization rewrites the hyphen form `min-max` to the
comma form `min,max` (the comma form and non-strings pass through
unchanged), and the dispatcher applies it only to the
`organization_num_employees_ranges` filter of the `organization_search`
tool: any other tool's arguments, and any other key of that tool's
arguments, are untouched. -/
theorem C7_range_normalization
    (minS maxS : String) (hmin : '-' ∉ minS.data)
    (s : String) (hs : '-' ∉ s.data)
    (v : JVal) (hv : ∀ t, v ≠ .str t)
    (name : String) (hn : name ≠ "organization_search")
    (args argsO : JVal) (k : String)
    (hk : k ≠ "organization_num_employees_ranges") :
    sanitizeRange (.str ⟨minS.data ++ '-' :: maxS.data⟩)
      = .str ⟨minS.data ++ ',' :: maxS.data⟩
    ∧ sanitizeRange (.str s) = .str s
    ∧ sanitizeRange v = v
    ∧ preprocessArgs name args = args
    ∧ getField (preprocessArgs "organization_search" argsO) k
        = getField argsO k
    ∧ (truthy (getField argsO "organization_num_employees_ranges") = true →
        getField (preprocessArgs "organization_search" argsO)
            "organization_num_employees_ranges"
          = sanitizeRanges
              (getField argsO "organization_num_employees_ranges")) := by
  refine ⟨?_, ?_, ?_, ?_, ?_, ?_⟩
  · show sanitizeRange (.str (String.mk (minS.data ++ '-' :: maxS.data))) = _
    simp only [sanitizeRange]
    rw [if_pos (by simp), replaceFirstChar_append _ hmin]
  · simp only [sanitizeRange]
    rw [if_neg (by simp [hs])]
  · cases v with
    | str t => exact absurd rfl (hv t)
    | _ => rfl
  · unfold preprocessArgs
    rw [if_neg]
    simp [hn]
  · unfold preprocessArgs
    by_cases ht : truthy (getField argsO "organization_num_employees_ranges")
    · rw [if_pos (by simp [ht])]
      exact getField_setField_ne argsO _ hk
    · rw [if_neg (by simp [ht])]
  · intro ht
    unfold preprocessArgs
    rw [if_pos (by simp [ht])]
    have hobj : ∃ fs, argsO = .obj fs := by
      cases argsO with
      | obj fs => exact ⟨fs, rfl⟩
      | _ => simp [getField, truthy] at ht
    obtain ⟨fs, rfl⟩ := hobj
    simp only [setField, getField]
    exact lookupField_setFields_self fs _ _

theorem C7_witness :
    ('-' ∉ "11".data)
    ∧ ('-' ∉ "11,50".data)
    ∧ sanitizeRange (.str ⟨"11".data ++ '-' :: "50".data⟩)
        = .str ⟨"11".data ++ ',' :: "50".data⟩
    ∧ preprocessArgs "people_search"
        (.obj [("organization_num_employees_ranges", .arr [.str "11-50"])])
      = .obj [("organization_num_employees_ranges", .arr [.str "11-50"])] := by
  refine ⟨by decide, by decide, ?_, ?_⟩
  · exact (C7_range_normalization "11" "50" (by decide) "11,50" (by decide)
      (.num 3) (fun t h => JVal.noConfusion h) "people_search"
      (by decide) (.obj []) (.obj []) "page" (by decide)).1
  · exact (C7_range_normalization "11" "50" (by decide) "11,50" (by decide)
      (.num 3) (fun t h => JVal.noConfusion h) "people_search"
      (by decide)
      (.obj [("organization_num_employees_ranges", .arr [.str "11-50"])])
      (.obj []) "page" (by decide)).2.2.2.1

/-! ## Employees-of-company with zero candidates (C9) -/

/-- C9: when the organization search of `employeesOfCompany` returns zero
candidates, the operation fails — it returns `null` and logs exactly the
"No organizations found" diagnostic — and the people-search request is
never issued, whatever the people-search endpoint would have answered. -/
theorem C9_zero_candidates (q : EocQuery) (st : Nat) (stx : String)
    (data : JVal) (pO : HttpOutcome)
    (hc : truthy q.company = true) (hd : truthy data = true)
    (ho : getField data "organizations" = .arr []) :
    (employeesOfCompany q (.ok st stx data) pO).result = JVal.null
    ∧ (employeesOfCompany q (.ok st stx data) pO).errLog
        = ["Error finding employees: No organizations found"]
    ∧ (employeesOfCompany q (.ok st stx data) pO).peoplePayload = none := by
  unfold employeesOfCompany employeesOfCompanyAux
  simp [hc, hd, ho]

theorem C9_witness :
    truthy (EocQuery.company ⟨.str "Acme", .undefined, .undefined, .undefined, .undefined⟩)
        = true
    ∧ truthy (JVal.obj [("organizations", .arr [])]) = true
    ∧ getField (.obj [("organizations", .arr [])]) "organizations" = .arr []
    ∧ (employeesOfCompany ⟨.str "Acme", .undefined, .undefined, .undefined, .undefined⟩
        (.ok 200 "OK" (.obj [("organizations", .arr [])]))
        (.ok 200 "OK" .null)).peoplePayload = none :=
  ⟨rfl, rfl, rfl,
    (C9_zero_candidates ⟨.str "Acme", .undefined, .undefined, .undefined, .undefined⟩
      200 "OK" (.obj [("organizations", .arr [])]) (.ok 200 "OK" .null)
      rfl rfl rfl).2.2⟩

/-! ## URL normalization order (C8) -/

theorem toLowerL_drop {cs : List Char} (h : toLowerL cs = cs) (n : Nat) :
    toLowerL (cs.drop n) = cs.drop n := by
  unfold toLowerL at *
  rw [List.map_drop, h]

theorem toLowerL_dropLast {cs : List Char} (h : toLowerL cs = cs) :
    toLowerL cs.dropLast = cs.dropLast := by
  unfold toLowerL at *
  rw [List.map_dropLast, h]

theorem toLowerL_stripProto {cs : List Char} (h : toLowerL cs = cs) :
    toLowerL (stripProto cs) = stripProto cs := by
  unfold stripProto
  split
  · exact toLowerL_drop h 8
  · split
    · exact toLowerL_drop h 7
    · exact h

theorem toLowerL_stripWww {cs : List Char} (h : toLowerL cs = cs) :
    toLowerL (stripWww cs) = stripWww cs := by
  unfold stripWww
  split
  · exact toLowerL_drop h 4
  · exact h

theorem toLowerL_stripSlash {cs : List Char} (h : toLowerL cs = cs) :
    toLowerL (stripSlash cs) = stripSlash cs := by
  unfold stripSlash
  split
  · exact toLowerL_dropLast h
  · exact h

/-- C8: the claim states the normalization is equivalent to lower-casing
first and then stripping the protocol, `www.`, and trailing slash. The
code's regexes are case-sensitive and the lower-casing happens last, so an
upper-case protocol survives: `"HTTPS://Example.com"` normalizes to
`"https://example.com"`, while the claim's recipe yields `"example.com"`. -/
theorem C8_counterexample :
    stripUrlStr "HTTPS://Example.com" = "https://example.com"
    ∧ stripUrlSpecStr "HTTPS://Example.com" = "example.com"
    ∧ stripUrlStr "HTTPS://Example.com"
        ≠ stripUrlSpecStr "HTTPS://Example.com" := by
  refine ⟨by decide, by decide, by decide⟩

/-- C8 (amended): normalization strips a leading `http://` or `https://`,
then a leading `www.`, then one trailing `/` — all matched
case-sensitively — and lower-cases the result afterwards; it never fails.
On inputs whose protocol/`www.` prefix is already lower-case this coincides
with the spec's lowercase-first recipe; in particular
`"https://www.Example.com/"` and `"example.com"` both normalize to
`"example.com"` and are judged equal. -/
theorem C8_amended_strip_then_lower (s : String)
    (h : toLowerL s.data = s.data) :
    stripUrlStr s = stripUrlSpecStr s
    ∧ stripUrlStr "https://www.Example.com/" = "example.com"
    ∧ stripUrlStr "example.com" = "example.com"
    ∧ stripUrlJ (.str "https://www.Example.com/")
        = stripUrlJ (.str "example.com") := by
  refine ⟨?_, by decide, by decide, by rfl⟩
  unfold stripUrlStr stripUrlSpecStr
  rw [h]
  exact congrArg String.mk
    (toLowerL_stripSlash (toLowerL_stripWww (toLowerL_stripProto h)))

theorem C8_witness :
    toLowerL "www.abc.com/".data = "www.abc.com/".data
    ∧ stripUrlStr "www.abc.com/" = stripUrlSpecStr "www.abc.com/" :=
  ⟨by decide, (C8_amended_strip_then_lower "www.abc.com/" (by decide)).1⟩

/-! ## Candidate selection in employeesOfCompany (C10) -/

theorem filterOrgsE_ok {sl sw : JVal} {orgs : List JVal}
    (h : ∀ o ∈ orgs, nullish o = false) :
    filterOrgsE sl sw orgs = .ok (orgs.filter (matchesOrg sl sw)) := by
  induction orgs with
  | nil => rfl
  | cons item rest ih =>
    have hi := h item (List.mem_cons_self _ _)
    have hr := ih (fun o ho => h o (List.mem_cons_of_mem _ ho))
    cases item <;> simp_all [filterOrgsE, nullish, List.filter_cons, Except.map]

theorem filter_headD_eq_find (p : JVal → Bool) (l : List JVal) (d : JVal) :
    (if (l.filter p).length > 0 then (l.filter p).headD JVal.undefined else d)
      = (l.find? p).getD d := by
  induction l with
  | nil => simp
  | cons x xs ih =>
    by_cases hp : p x
    · simp [List.filter_cons, hp, List.find?_cons_of_pos _ hp]
    · simp only [List.filter_cons, hp, if_neg, Bool.false_eq_true,
        List.find?_cons_of_neg _ (by simpa using hp)]
      exact ih

theorem chooseCompanyE_first_match {sl sw : JVal} {orgs : List JVal}
    (h : ∀ o ∈ orgs, nullish o = false) :
    chooseCompanyE sl sw orgs
      = .ok ((orgs.find? (matchesOrg sl sw)).getD (orgs.headD .undefined)) := by
  unfold chooseCompanyE
  rw [filterOrgsE_ok h]
  simp only [Except.map]
  rw [filter_headD_eq_find]

theorem matchesOrg_undef (item : JVal) :
    matchesOrg .undefined .undefined item = false := by
  simp [matchesOrg, truthy]

theorem chooseCompanyE_second {sl sw o1 o2 : JVal}
    (h1 : nullish o1 = false) (h2 : nullish o2 = false)
    (hm1 : matchesOrg sl sw o1 = false) (hm2 : matchesOrg sl sw o2 = true) :
    chooseCompanyE sl sw [o1, o2] = .ok o2 := by
  rw [chooseCompanyE_first_match (by
    intro o ho
    rcases List.mem_cons.mp ho with rfl | ho2
    · exact h1
    · rcases List.mem_cons.mp ho2 with rfl | ho3
      · exact h2
      · cases ho3)]
  rw [List.find?_cons_of_neg _ (by simp [hm1]),
    List.find?_cons_of_pos _ hm2]
  rfl

theorem addSplitField_ok {v : JVal} (fs : List (String × JVal)) (key : String)
    (msg : String) (h : strOrFalsy v = true) :
    ∃ fs2, addSplitField fs key v msg = .ok fs2
      ∧ ∀ k2, k2 ≠ key → lookupField fs2 k2 = lookupField fs k2 := by
  cases v with
  | str s =>
    by_cases ht : truthy (.str s)
    · exact ⟨setFields fs key (splitTrim s), by simp [addSplitField, ht],
        fun k2 hk2 => lookupField_setFields_ne fs _ hk2⟩
    · exact ⟨fs, by simp [addSplitField, ht], fun _ _ => rfl⟩
  | _ =>
    refine ⟨fs, ?_, fun _ _ => rfl⟩
    simp only [strOrFalsy, Bool.not_eq_true'] at h
    simp [addSplitField, h]

theorem employeesOfCompany_payload (q : EocQuery) (orgO pO : HttpOutcome) :
    (employeesOfCompany q orgO pO).peoplePayload
      = (employeesOfCompanyAux q orgO pO).1 := by
  unfold employeesOfCompany
  rcases employeesOfCompanyAux q orgO pO with ⟨pl, res⟩
  cases res <;> rfl

/-- C10: among the organization candidates, the one whose identifier is
used is the first (in search order) whose stripped LinkedIn or website URL
strictly equals the corresponding caller-supplied stripped URL; with no
match or no URL supplied, the first candidate is used. In particular, when
only the second of two candidates matches, the second candidate's
identifier fills `organization_ids` of the people-search payload. -/
theorem C10_candidate_selection :
    (∀ sl sw : JVal, ∀ orgs : List JVal,
      (∀ o ∈ orgs, nullish o = false) →
      chooseCompanyE sl sw orgs
        = .ok ((orgs.find? (matchesOrg sl sw)).getD (orgs.headD .undefined)))
    ∧ (∀ orgs : List JVal, (∀ o ∈ orgs, nullish o = false) →
        chooseCompanyE .undefined .undefined orgs = .ok (orgs.headD .undefined))
    ∧ (∀ sl sw o1 o2 : JVal, nullish o1 = false → nullish o2 = false →
        matchesOrg sl sw o1 = false → matchesOrg sl sw o2 = true →
        chooseCompanyE sl sw [o1, o2] = .ok o2)
    ∧ (∀ q : EocQuery, ∀ st : Nat, ∀ stx : String, ∀ data : JVal,
        ∀ pO : HttpOutcome, ∀ o1 o2 : JVal,
        truthy q.company = true → truthy data = true →
        getField data "organizations" = .arr [o1, o2] →
        nullish o1 = false → nullish o2 = false →
        matchesOrg (stripUrlJ q.linkedin_url) (stripUrlJ q.website_url) o1
            = false →
        matchesOrg (stripUrlJ q.linkedin_url) (stripUrlJ q.website_url) o2
            = true →
        truthy (getField o2 "id") = true →
        strOrFalsy q.person_seniorities = true →
        strOrFalsy q.contact_email_status = true →
        ∃ pl, (employeesOfCompany q (.ok st stx data) pO).peoplePayload
                = some pl
          ∧ getField pl "organization_ids" = .arr [getField o2 "id"]) := by
  refine ⟨?_, ?_, ?_, ?_⟩
  · intro sl sw orgs h
    exact chooseCompanyE_first_match h
  · intro orgs h
    rw [chooseCompanyE_first_match h]
    simp [matchesOrg_undef, List.find?_eq_none.mpr]
  · intro sl sw o1 o2 h1 h2 hm1 hm2
    exact chooseCompanyE_second h1 h2 hm1 hm2
  · intro q st stx data pO o1 o2 hc hd ho h1 h2 hm1 hm2 hid hsen hces
    rw [employeesOfCompany_payload]
    obtain ⟨fs1, hfs1, hlk1⟩ := addSplitField_ok
      [("organization_ids", JVal.arr [getField o2 "id"]),
       ("page", JVal.num 1), ("limit", JVal.num 100)]
      "person_titles"
      "query.person_seniorities.split is not a function" hsen
    obtain ⟨fs2, hfs2, hlk2⟩ := addSplitField_ok fs1
      "contact_email_status_v2"
      "query.contact_email_status.split is not a function" hces
    have hch := chooseCompanyE_second h1 h2 hm1 hm2
    refine ⟨JVal.obj fs2, ?_, ?_⟩
    · unfold employeesOfCompanyAux
      simp only [hc, hd, ho, hch, hid, if_true, if_pos]
      simp only [List.length_cons, List.length_nil]
      rw [if_neg (by omega)]
      simp only [hfs1, hfs2]
      cases pO with
      | err s t m => rfl
      | ok ps pt pdata =>
        by_cases hp : truthy pdata
        · simp [hp]
        · simp [hp]
    · show lookupField fs2 "organization_ids" = JVal.arr [getField o2 "id"]
      rw [hlk2 _ (by decide), hlk1 _ (by decide)]
      rfl

theorem C10_witness :
    matchesOrg
        (stripUrlJ (.str "https://www.linkedin.com/company/acme/"))
        (stripUrlJ .undefined)
        (.obj [("id", .str "111"),
               ("linkedin_url", .str "https://linkedin.com/company/other")])
      = false
    ∧ matchesOrg
        (stripUrlJ (.str "https://www.linkedin.com/company/acme/"))
        (stripUrlJ .undefined)
        (.obj [("id", .str "222"),
               ("linkedin_url", .str "http://www.LinkedIn.com/company/acme")])
      = true
    ∧ ∃ pl,
        (employeesOfCompany
          ⟨.str "Acme", .undefined, .str "https://www.linkedin.com/company/acme/",
           .undefined, .undefined⟩
          (.ok 200 "OK" (.obj [("organizations", .arr
            [.obj [("id", .str "111"),
                   ("linkedin_url", .str "https://linkedin.com/company/other")],
             .obj [("id", .str "222"),
                   ("linkedin_url",
                    .str "http://www.LinkedIn.com/company/acme")]])]))
          (.ok 200 "OK" (.obj [("people", .arr [.str "p1"])]))).peoplePayload
          = some pl
        ∧ getField pl "organization_ids"
            = .arr [getField
                (.obj [("id", .str "222"),
                       ("linkedin_url",
                        .str "http://www.LinkedIn.com/company/acme")]) "id"] :=
  ⟨by rfl, by rfl,
    C10_candidate_selection.2.2.2
      ⟨.str "Acme", .undefined, .str "https://www.linkedin.com/company/acme/",
       .undefined, .undefined⟩
      200 "OK"
      (.obj [("organizations", .arr
        [.obj [("id", .str "111"),
               ("linkedin_url", .str "https://linkedin.com/company/other")],
         .obj [("id", .str "222"),
               ("linkedin_url", .str "http://www.LinkedIn.com/company/acme")]])])
      (.ok 200 "OK" (.obj [("people", .arr [.str "p1"])]))
      (.obj [("id", .str "111"),
             ("linkedin_url", .str "https://linkedin.com/company/other")])
      (.obj [("id", .str "222"),
             ("linkedin_url", .str "http://www.LinkedIn.com/company/acme")])
      rfl rfl rfl rfl rfl (by rfl) (by rfl) rfl rfl rfl⟩

/-! ## Bracket-key arithmetic (for the formatter, C5 and C6) -/

theorem exceptBind_ok {α β : Type} (a : α) (f : α → Except String β) :
    (Except.ok a : Except String α) >>= f = f a := rfl

theorem bracket_split {a b u v : List Char} (ha : '[' ∉ a) (hb : '[' ∉ b)
    (h : a ++ '[' :: u = b ++ '[' :: v) : a = b ∧ u = v := by
  induction a generalizing b with
  | nil =>
    cases b with
    | nil => simpa using h
    | cons c bs =>
      simp only [List.nil_append, List.cons_append, List.cons.injEq] at h
      exact absurd (h.1 ▸ List.mem_cons_self c bs) hb
  | cons c as ih =>
    cases b with
    | nil =>
      simp only [List.cons_append, List.nil_append, List.cons.injEq] at h
      exact absurd (h.1.symm ▸ List.mem_cons_self c as) ha
    | cons d bs =>
      simp only [List.cons_append, List.cons.injEq] at h
      obtain ⟨rfl, h2⟩ := h
      have ha2 : '[' ∉ as := fun hm => ha (List.mem_cons_of_mem _ hm)
      have hb2 : '[' ∉ bs := fun hm => hb (List.mem_cons_of_mem _ hm)
      obtain ⟨rfl, rfl⟩ := ih ha2 hb2 h2
      exact ⟨rfl, rfl⟩

theorem data_arrKey (k : String) :
    (k ++ "[]").data = k.data ++ '[' :: [']'] := by
  rw [String.data_append]

theorem data_objKey (k sk : String) :
    (k ++ "[" ++ sk ++ "]").data = k.data ++ '[' :: (sk.data ++ [']']) := by
  simp [String.data_append]

theorem keyOK_iff {k : String} : keyOK k = true ↔ '[' ∉ k.data := by
  simp [keyOK]

theorem plain_ne_arrKey {k k2 : String} (hk : '[' ∉ k.data) :
    k ≠ k2 ++ "[]" := by
  intro he
  have hd := congrArg String.data he
  rw [data_arrKey] at hd
  exact hk (hd ▸ (by simp))

theorem plain_ne_objKey {k k2 sk : String} (hk : '[' ∉ k.data) :
    k ≠ k2 ++ "[" ++ sk ++ "]" := by
  intro he
  have hd := congrArg String.data he
  rw [data_objKey] at hd
  exact hk (hd ▸ (by simp))

theorem arrKey_inj {k1 k2 : String} (h1 : '[' ∉ k1.data)
    (h2 : '[' ∉ k2.data) (h : k1 ++ "[]" = k2 ++ "[]") : k1 = k2 := by
  have hd := congrArg String.data h
  rw [data_arrKey, data_arrKey] at hd
  exact String.ext (bracket_split h1 h2 hd).1

theorem arrKey_ne_objKey {k1 k2 sk : String} (h1 : '[' ∉ k1.data)
    (h2 : '[' ∉ k2.data) (hsk : sk ≠ "") :
    k1 ++ "[]" ≠ k2 ++ "[" ++ sk ++ "]" := by
  intro he
  have hd := congrArg String.data he
  rw [data_arrKey, data_objKey] at hd
  have h3 := (bracket_split h1 h2 hd).2
  have hnil : sk.data = [] := by
    have hl := congrArg List.length h3
    simp only [List.length_cons, List.length_nil, List.length_append] at hl
    exact List.eq_nil_of_length_eq_zero (by omega)
  exact hsk (String.ext (by rw [hnil]))

theorem objKey_inj {k1 k2 s1 s2 : String} (h1 : '[' ∉ k1.data)
    (h2 : '[' ∉ k2.data) (h : k1 ++ "[" ++ s1 ++ "]" = k2 ++ "[" ++ s2 ++ "]") :
    k1 = k2 ∧ s1 = s2 := by
  have hd := congrArg String.data h
  rw [data_objKey, data_objKey] at hd
  obtain ⟨ha, hb⟩ := bracket_split h1 h2 hd
  exact ⟨String.ext ha, String.ext (List.append_cancel_right hb)⟩

theorem objKey_inj_same {k s1 s2 : String}
    (h : k ++ "[" ++ s1 ++ "]" = k ++ "[" ++ s2 ++ "]") : s1 = s2 := by
  have hd := congrArg String.data h
  rw [data_objKey, data_objKey] at hd
  have h2 := List.append_cancel_left hd
  simp only [List.cons.injEq, true_and] at h2
  exact String.ext (List.append_cancel_right h2)

/-! ## Per-entry shape of the formatted keys -/

theorem keysOf_append (a b : List (String × JVal)) :
    keysOf (a ++ b) = keysOf a ++ keysOf b := by
  simp [keysOf]

theorem flatAll_cons (e : String × JVal) (q : List (String × JVal)) :
    flatAll (e :: q) = formatEntry e ++ flatAll q := by
  simp [flatAll]

theorem mem_keys_formatEntry {a k : String} {v : JVal}
    (ha : a ∈ keysOf (formatEntry (k, v))) :
    (a = k ∧ scalarJV v = true)
    ∨ (∃ xs, v = .arr xs ∧ a = k ++ "[]")
    ∨ (∃ sk sv, (sk, sv) ∈ subsOf v ∧ nullish sv = false
        ∧ a = k ++ "[" ++ sk ++ "]") := by
  cases v with
  | undefined => simp [formatEntry, keysOf] at ha
  | null => simp [formatEntry, keysOf] at ha
  | bool b =>
    left
    simp [formatEntry, keysOf] at ha
    exact ⟨ha, rfl⟩
  | num n =>
    left
    simp [formatEntry, keysOf] at ha
    exact ⟨ha, rfl⟩
  | str s =>
    left
    simp [formatEntry, keysOf] at ha
    exact ⟨ha, rfl⟩
  | arr xs =>
    right; left
    cases xs with
    | nil => simp [formatEntry, keysOf] at ha
    | cons y ys =>
      simp [formatEntry, keysOf] at ha
      exact ⟨y :: ys, rfl, ha⟩
  | obj subs =>
    right; right
    simp only [keysOf, subsOf] at ha ⊢
    obtain ⟨p, hp, rfl⟩ := List.mem_map.mp ha
    obtain ⟨sp, hsp, hg⟩ := List.mem_filterMap.mp hp
    rcases sp with ⟨sk, sv⟩
    cases sv with
    | undefined => simp [formatEntry] at hg
    | null => simp [formatEntry] at hg
    | bool b =>
      refine ⟨sk, .bool b, hsp, rfl, ?_⟩
      simp only [formatEntry, Option.some.injEq] at hg
      rw [← hg]
    | num n =>
      refine ⟨sk, .num n, hsp, rfl, ?_⟩
      simp only [formatEntry, Option.some.injEq] at hg
      rw [← hg]
    | str s =>
      refine ⟨sk, .str s, hsp, rfl, ?_⟩
      simp only [formatEntry, Option.some.injEq] at hg
      rw [← hg]
    | arr xs =>
      refine ⟨sk, .arr xs, hsp, rfl, ?_⟩
      simp only [formatEntry, Option.some.injEq] at hg
      rw [← hg]
    | obj fs2 =>
      refine ⟨sk, .obj fs2, hsp, rfl, ?_⟩
      simp only [formatEntry, Option.some.injEq] at hg
      rw [← hg]

theorem mem_keys_flatAll {a : String} {q : List (String × JVal)}
    (h : a ∈ keysOf (flatAll q)) : ∃ e ∈ q, a ∈ keysOf (formatEntry e) := by
  induction q with
  | nil => simp [flatAll, keysOf] at h
  | cons e rest ih =>
    rw [flatAll_cons, keysOf_append] at h
    rcases List.mem_append.mp h with h1 | h2
    · exact ⟨e, List.mem_cons_self _ _, h1⟩
    · obtain ⟨e2, he2, hk2⟩ := ih h2
      exact ⟨e2, List.mem_cons_of_mem _ he2, hk2⟩

theorem mem_flatAll_of_mem {p e} {q : List (String × JVal)}
    (he : e ∈ q) (hp : p ∈ formatEntry e) : p ∈ flatAll q := by
  induction q with
  | nil => cases he
  | cons e2 rest ih =>
    rw [flatAll_cons]
    rcases List.mem_cons.mp he with rfl | h2
    · exact List.mem_append.mpr (Or.inl hp)
    · exact List.mem_append.mpr (Or.inr (ih h2))

/-- Keys produced by an entry with a different base key never collide with
that entry's array key, plain key, or object keys. -/
theorem keys_formatEntry_disjoint {k1 k2 : String} {v1 v2 : JVal}
    (hk1 : '[' ∉ k1.data) (hk2 : '[' ∉ k2.data)
    (hs1 : ∀ sp ∈ subsOf v1, sp.1 ≠ "") (hs2 : ∀ sp ∈ subsOf v2, sp.1 ≠ "")
    (hne : k1 ≠ k2) {a : String}
    (ha : a ∈ keysOf (formatEntry (k1, v1)))
    (hb : a ∈ keysOf (formatEntry (k2, v2))) : False := by
  rcases mem_keys_formatEntry ha with ⟨rfl, _⟩ | ⟨xs, _, rfl⟩ | ⟨sk, sv, hsk, _, rfl⟩
  · rcases mem_keys_formatEntry hb with ⟨h2e, _⟩ | ⟨ys, _, h2e⟩ | ⟨sk2, sv2, hsk2, _, h2e⟩
    · exact hne h2e
    · exact plain_ne_arrKey hk1 h2e
    · exact plain_ne_objKey hk1 h2e
  · rcases mem_keys_formatEntry hb with ⟨h2e, _⟩ | ⟨ys, _, h2e⟩ | ⟨sk2, sv2, hsk2, _, h2e⟩
    · exact plain_ne_arrKey hk2 h2e.symm
    · exact hne (arrKey_inj hk1 hk2 h2e)
    · exact arrKey_ne_objKey hk1 hk2 (hs2 _ hsk2) h2e
  · rcases mem_keys_formatEntry hb with ⟨h2e, _⟩ | ⟨ys, _, h2e⟩ | ⟨sk2, sv2, hsk2, _, h2e⟩
    · exact plain_ne_objKey hk2 h2e.symm
    · exact arrKey_ne_objKey hk2 hk1 (hs1 _ hsk) h2e.symm
    · exact hne (objKey_inj hk1 hk2 h2e).1

/-! ## Distinctness of the formatted keys under well-formedness -/

theorem nodup_keys_formatEntry {k : String} {v : JVal}
    (hsub : (keysOf (subsOf v)).Nodup) :
    (keysOf (formatEntry (k, v))).Nodup := by
  cases v with
  | undefined => simp [formatEntry, keysOf]
  | null => simp [formatEntry, keysOf]
  | bool b => simp [formatEntry, keysOf]
  | num n => simp [formatEntry, keysOf]
  | str s => simp [formatEntry, keysOf]
  | arr xs => cases xs <;> simp [formatEntry, keysOf]
  | obj subs =>
    simp only [subsOf] at hsub
    induction subs with
    | nil => simp [formatEntry, keysOf]
    | cons sp rest ih =>
      rcases sp with ⟨sk, sv⟩
      simp only [keysOf, List.map_cons, List.nodup_cons] at hsub
      have ihr := ih hsub.2
      have hstep : ∀ sv2 : JVal, nullish sv2 = false →
          (keysOf (formatEntry (k, JVal.obj ((sk, sv2) :: rest)))).Nodup := by
        intro sv2 hnl
        have hfm : formatEntry (k, JVal.obj ((sk, sv2) :: rest))
            = (k ++ "[" ++ sk ++ "]", sv2) :: formatEntry (k, JVal.obj rest) := by
          cases sv2 <;> simp_all [formatEntry, List.filterMap_cons, nullish]
        rw [hfm]
        simp only [keysOf, List.map_cons, List.nodup_cons]
        refine ⟨?_, ihr⟩
        intro hmem
        rcases mem_keys_formatEntry (by simpa [keysOf] using hmem) with
          ⟨he, hsc⟩ | ⟨xs, hx, _⟩ | ⟨sk2, sv2b, hsk2, _, he⟩
        · exact absurd hsc (by simp [scalarJV])
        · exact JVal.noConfusion hx
        · have hske : sk = sk2 := objKey_inj_same he
          simp only [subsOf] at hsk2
          exact hsub.1 (hske ▸ List.mem_map_of_mem Prod.fst hsk2)
      cases sv with
      | undefined =>
        have : formatEntry (k, JVal.obj ((sk, JVal.undefined) :: rest))
            = formatEntry (k, JVal.obj rest) := by
          simp [formatEntry, List.filterMap_cons]
        rw [this]
        exact ihr
      | null =>
        have : formatEntry (k, JVal.obj ((sk, JVal.null) :: rest))
            = formatEntry (k, JVal.obj rest) := by
          simp [formatEntry, List.filterMap_cons]
        rw [this]
        exact ihr
      | bool b => exact hstep (.bool b) rfl
      | num n => exact hstep (.num n) rfl
      | str s => exact hstep (.str s) rfl
      | arr xs => exact hstep (.arr xs) rfl
      | obj fs2 => exact hstep (.obj fs2) rfl

theorem WFFilter_tail {e : String × JVal} {q : List (String × JVal)}
    (h : WFFilter (e :: q)) : WFFilter q := by
  obtain ⟨h1, h2, h3⟩ := h
  refine ⟨?_, fun p hp => h2 p (List.mem_cons_of_mem _ hp),
    fun p hp => h3 p (List.mem_cons_of_mem _ hp)⟩
  simp only [keysOf, List.map_cons, List.nodup_cons] at h1
  exact h1.2

theorem nodup_keys_flatAll {q : List (String × JVal)} (h : WFFilter q) :
    (keysOf (flatAll q)).Nodup := by
  induction q with
  | nil => simp [flatAll, keysOf]
  | cons e rest ih =>
    rw [flatAll_cons, keysOf_append, List.nodup_append]
    refine ⟨?_, ih (WFFilter_tail h), ?_⟩
    · rcases e with ⟨k, v⟩
      exact nodup_keys_formatEntry (h.2.2 _ (List.mem_cons_self _ _)).1
    · intro a ha hb
      obtain ⟨e2, he2, hb2⟩ := mem_keys_flatAll hb
      have hne : e.1 ≠ e2.1 := by
        intro he
        have h1 := h.1
        simp only [keysOf, List.map_cons, List.nodup_cons] at h1
        exact h1.1 (he ▸ List.mem_map_of_mem Prod.fst he2)
      rcases e with ⟨k1, v1⟩
      rcases e2 with ⟨k2, v2⟩
      exact keys_formatEntry_disjoint
        (keyOK_iff.mp (h.2.1 _ (List.mem_cons_self _ _)))
        (keyOK_iff.mp (h.2.1 _ (List.mem_cons_of_mem _ he2)))
        ((h.2.2 _ (List.mem_cons_self _ _)).2)
        ((h.2.2 _ (List.mem_cons_of_mem _ he2)).2)
        hne ha hb2

/-! ## The formatter computes the per-entry concatenation -/

theorem pushFold {acc : List (String × JVal)} {key : String}
    (hk : key ∉ keysOf acc) (ys zs : List JVal) :
    List.foldlM (fun a item => pushToKey a key item)
        (acc ++ [(key, JVal.arr ys)]) zs
      = .ok (acc ++ [(key, JVal.arr (ys ++ zs))]) := by
  induction zs generalizing ys with
  | nil => simp; rfl
  | cons z zs ih =>
    rw [List.foldlM_cons]
    have hl : lookupField (acc ++ [(key, JVal.arr ys)]) key = JVal.arr ys := by
      rw [lookupField_append_of_not_mem _ hk]
      simp [lookupField]
    have hs : setFields (acc ++ [(key, JVal.arr ys)]) key
        (JVal.arr (ys ++ [z])) = acc ++ [(key, JVal.arr (ys ++ [z]))] := by
      rw [setFields_append_of_not_mem _ _ hk]
      simp [setFields]
    have hpush : pushToKey (acc ++ [(key, JVal.arr ys)]) key z
        = .ok (acc ++ [(key, JVal.arr (ys ++ [z]))]) := by
      simp only [pushToKey, hl, truthy, if_pos, hs]
    rw [hpush, exceptBind_ok, ih]
    simp

theorem nullish_cases {v : JVal} (h : nullish v = true) :
    v = .undefined ∨ v = .null := by
  cases v <;> simp_all [nullish]

theorem objAssign_nn {key : String} {a : List (String × JVal)} {sk : String}
    {sv : JVal} (h : nullish sv = false) :
    objAssign key a (sk, sv) = setFields a (key ++ "[" ++ sk ++ "]") sv := by
  cases sv <;> simp_all [objAssign, nullish]

theorem formatEntry_obj_cons_nn {k sk : String} {sv : JVal}
    (rest : List (String × JVal)) (h : nullish sv = false) :
    formatEntry (k, .obj ((sk, sv) :: rest))
      = (k ++ "[" ++ sk ++ "]", sv) :: formatEntry (k, .obj rest) := by
  cases sv <;> simp_all [formatEntry, List.filterMap_cons, nullish]

theorem formatEntry_obj_cons_skip {k sk : String} {sv : JVal}
    (rest : List (String × JVal)) (h : nullish sv = true) :
    formatEntry (k, .obj ((sk, sv) :: rest)) = formatEntry (k, .obj rest) := by
  rcases nullish_cases h with rfl | rfl <;>
    simp [formatEntry, List.filterMap_cons]

theorem objFold {k : String} (subs : List (String × JVal))
    (acc : List (String × JVal))
    (hnd : (keysOf acc
      ++ keysOf (formatEntry (k, JVal.obj subs))).Nodup) :
    subs.foldl (objAssign k) acc
      = acc ++ formatEntry (k, JVal.obj subs) := by
  induction subs generalizing acc with
  | nil => simp [formatEntry]
  | cons sp rest ih =>
    rcases sp with ⟨sk, sv⟩
    rw [List.foldl_cons]
    by_cases hnl : nullish sv = true
    · have hskip : objAssign k acc (sk, sv) = acc := by
        rcases nullish_cases hnl with rfl | rfl <;> rfl
      rw [hskip, formatEntry_obj_cons_skip rest hnl]
      exact ih acc (by rw [formatEntry_obj_cons_skip rest hnl] at hnd; exact hnd)
    · have hnl2 : nullish sv = false := by simpa using hnl
      rw [objAssign_nn hnl2, formatEntry_obj_cons_nn rest hnl2]
      rw [formatEntry_obj_cons_nn rest hnl2] at hnd
      have hnd0 : (keysOf acc ++ ((k ++ "[" ++ sk ++ "]")
          :: keysOf (formatEntry (k, JVal.obj rest)))).Nodup := by
        simpa [keysOf] using hnd
      have hfresh : k ++ "[" ++ sk ++ "]" ∉ keysOf acc := by
        intro hmem
        exact (List.nodup_append.mp hnd0).2.2 hmem (List.mem_cons_self _ _)
      have hnd2 : (keysOf (acc ++ [(k ++ "[" ++ sk ++ "]", sv)])
          ++ keysOf (formatEntry (k, JVal.obj rest))).Nodup := by
        rw [keysOf_append, List.append_assoc]
        simpa [keysOf] using hnd0
      rw [setFields_of_not_mem _ hfresh, ih _ hnd2]
      simp

theorem not_mem_of_nodup_append_singleton {A : List String} {k : String}
    (h : (A ++ [k]).Nodup) : k ∉ A := by
  intro hm
  exact (List.nodup_append.mp h).2.2 hm (List.mem_cons_self _ _)

theorem formatEntryStep_fresh {acc : List (String × JVal)}
    {e : String × JVal}
    (hnd : (keysOf acc ++ keysOf (formatEntry e)).Nodup) :
    formatEntryStep acc e = .ok (acc ++ formatEntry e) := by
  rcases e with ⟨k, v⟩
  cases v with
  | undefined => simp [formatEntryStep, formatEntry]
  | null => simp [formatEntryStep, formatEntry]
  | bool b =>
    have hfresh : k ∉ keysOf acc :=
      not_mem_of_nodup_append_singleton
        (by simpa [formatEntry, keysOf] using hnd)
    simp [formatEntryStep, formatEntry, setFields_of_not_mem _ hfresh]
  | num n =>
    have hfresh : k ∉ keysOf acc :=
      not_mem_of_nodup_append_singleton
        (by simpa [formatEntry, keysOf] using hnd)
    simp [formatEntryStep, formatEntry, setFields_of_not_mem _ hfresh]
  | str s =>
    have hfresh : k ∉ keysOf acc :=
      not_mem_of_nodup_append_singleton
        (by simpa [formatEntry, keysOf] using hnd)
    simp [formatEntryStep, formatEntry, setFields_of_not_mem _ hfresh]
  | arr xs =>
    cases xs with
    | nil =>
      simp only [formatEntryStep]
      rw [List.foldlM_nil]
      simp [formatEntry]
      rfl
    | cons y ys =>
      have hfresh : (k ++ "[]") ∉ keysOf acc :=
        not_mem_of_nodup_append_singleton
          (by simpa [formatEntry, keysOf] using hnd)
      simp only [formatEntryStep]
      rw [List.foldlM_cons]
      have hp1 : pushToKey acc (k ++ "[]") y
          = .ok (acc ++ [(k ++ "[]", JVal.arr [y])]) := by
        simp only [pushToKey, lookupField_of_not_mem hfresh, truthy,
          Bool.false_eq_true, if_neg]
        rw [setFields_of_not_mem _ hfresh]
        simp
      rw [hp1, exceptBind_ok, pushFold hfresh [y] ys]
      simp [formatEntry]
  | obj subs =>
    simp only [formatEntryStep]
    rw [objFold subs acc hnd]

theorem foldlM_format (q : List (String × JVal))
    (acc : List (String × JVal))
    (hnd : (keysOf acc ++ keysOf (flatAll q)).Nodup) :
    List.foldlM formatEntryStep acc q = .ok (acc ++ flatAll q) := by
  induction q generalizing acc with
  | nil =>
    rw [List.foldlM_nil]
    simp [flatAll]
    rfl
  | cons e rest ih =>
    rw [List.foldlM_cons]
    rw [flatAll_cons, keysOf_append] at hnd
    have h1 : (keysOf acc ++ keysOf (formatEntry e)).Nodup := by
      rw [← List.append_assoc] at hnd
      exact (List.nodup_append.mp hnd).1
    rw [formatEntryStep_fresh h1, exceptBind_ok]
    have h2 : (keysOf (acc ++ formatEntry e)
        ++ keysOf (flatAll rest)).Nodup := by
      rw [keysOf_append, List.append_assoc]
      exact hnd
    rw [ih _ h2, flatAll_cons]
    simp

/-- On a well-formed filter object the formatter succeeds and produces
exactly the concatenation of the per-entry contributions, in entry order. -/
theorem formatQueryParams_eq_flatAll {q : List (String × JVal)}
    (h : WFFilter q) : formatQueryParams q = .ok (flatAll q) := by
  have h0 := foldlM_format q []
    (by simpa [keysOf] using nodup_keys_flatAll h)
  simpa [formatQueryParams] using h0

theorem queryEntries_append (a b : List (String × JVal)) :
    queryEntries (a ++ b) = queryEntries a ++ queryEntries b := by
  simp [queryEntries]

theorem fst_mem_queryEntries {p : String × JVal}
    {fs : List (String × JVal)} (h : p ∈ queryEntries fs) :
    p.1 ∈ keysOf fs := by
  induction fs with
  | nil => simp [queryEntries] at h
  | cons e rest ih =>
    have : queryEntries (e :: rest) = expandParam e ++ queryEntries rest := by
      simp [queryEntries]
    rw [this] at h
    rcases List.mem_append.mp h with h1 | h2
    · rcases e with ⟨ek, ev⟩
      cases ev <;> simp only [expandParam] at h1 <;>
        first
        | (obtain ⟨x, _, rfl⟩ := List.mem_map.mp h1; simp [keysOf])
        | (rcases List.mem_singleton.mp h1 with rfl; simp [keysOf])
    · exact List.mem_cons_of_mem _ (ih h2)

theorem arrKey_not_produced {k : String} (hkOK : '[' ∉ k.data)
    {e2 : String × JVal} (hk2OK : '[' ∉ e2.1.data)
    (hs2 : ∀ sp ∈ subsOf e2.2, sp.1 ≠ "") (hne : e2.1 ≠ k) :
    (k ++ "[]") ∉ keysOf (formatEntry e2) := by
  intro hmem
  rcases e2 with ⟨k2, v2⟩
  rcases mem_keys_formatEntry hmem with
    ⟨he, _⟩ | ⟨ys, _, he⟩ | ⟨sk2, sv2, hsk2, _, he⟩
  · exact plain_ne_arrKey hk2OK he.symm
  · exact hne (arrKey_inj hk2OK hkOK he.symm)
  · exact arrKey_ne_objKey hkOK hk2OK (hs2 _ hsk2) he

theorem mem_keysOf_of_mem {p : String × JVal} {fs : List (String × JVal)}
    (h : p ∈ fs) : p.1 ∈ keysOf fs := by
  simpa [keysOf] using List.mem_map_of_mem Prod.fst h

theorem head_key_not_in_tail {e : String × JVal}
    {rest : List (String × JVal)} {p : String × JVal}
    (h1 : (keysOf (e :: rest)).Nodup) (hp : p ∈ rest) : e.1 ≠ p.1 := by
  intro hee
  simp only [keysOf, List.map_cons, List.nodup_cons] at h1
  exact h1.1 (hee ▸ List.mem_map_of_mem Prod.fst hp)

theorem filter_arrKey_flatAll {q : List (String × JVal)} {k : String}
    {xs : List JVal} (h : WFFilter q) (hk : (k, JVal.arr xs) ∈ q) :
    (queryEntries (flatAll q)).filter (fun p => p.1 == k ++ "[]")
      = xs.map (fun x => (k ++ "[]", x)) := by
  induction q with
  | nil => cases hk
  | cons e rest ih =>
    rw [flatAll_cons, queryEntries_append, List.filter_append]
    have hkOK : '[' ∉ k.data := keyOK_iff.mp (h.2.1 _ hk)
    rcases List.mem_cons.mp hk with he | hk2
    · subst he
      have htail : (queryEntries (flatAll rest)).filter
          (fun p => p.1 == k ++ "[]") = [] := by
        rw [List.filter_eq_nil_iff]
        intro p hp hpk
        have hp1 : p.1 ∈ keysOf (flatAll rest) := fst_mem_queryEntries hp
        obtain ⟨e2, he2, hke2⟩ := mem_keys_flatAll hp1
        have heq : p.1 = k ++ "[]" := by simpa using hpk
        rw [heq] at hke2
        exact arrKey_not_produced hkOK
          (keyOK_iff.mp (h.2.1 _ (List.mem_cons_of_mem _ he2)))
          ((h.2.2 _ (List.mem_cons_of_mem _ he2)).2)
          (head_key_not_in_tail h.1 he2).symm hke2
      rw [htail, List.append_nil]
      cases xs with
      | nil => simp [formatEntry, queryEntries]
      | cons y ys =>
        have hfe : formatEntry (k, JVal.arr (y :: ys))
            = [(k ++ "[]", JVal.arr (y :: ys))] := by
          simp [formatEntry]
        rw [hfe]
        have hqe : queryEntries [(k ++ "[]", JVal.arr (y :: ys))]
            = (y :: ys).map (fun x => (k ++ "[]", x)) := by
          simp [queryEntries, expandParam]
        rw [hqe, List.filter_map]
        have hcomp : ((fun p : String × JVal => p.1 == k ++ "[]")
            ∘ (fun x => (k ++ "[]", x))) = fun _ => true := by
          funext x
          simp
        rw [hcomp]
        simp
    · have hne : e.1 ≠ k :=
        head_key_not_in_tail h.1 ((by exact hk2) : (k, JVal.arr xs) ∈ rest)
      have hhead : (queryEntries (formatEntry e)).filter
          (fun p => p.1 == k ++ "[]") = [] := by
        rw [List.filter_eq_nil_iff]
        intro p hp hpk
        have hp1 := fst_mem_queryEntries hp
        have heq : p.1 = k ++ "[]" := by simpa using hpk
        rw [heq] at hp1
        exact arrKey_not_produced hkOK
          (keyOK_iff.mp (h.2.1 _ (List.mem_cons_self _ _)))
          ((h.2.2 _ (List.mem_cons_self _ _)).2) hne hp1
      rw [hhead]
      simp only [List.nil_append]
      exact ih (WFFilter_tail h) hk2

theorem mem_value_eq_of_nodup {q : List (String × JVal)} {k : String}
    {v1 v2 : JVal} (hnd : (keysOf q).Nodup) (h1 : (k, v1) ∈ q)
    (h2 : (k, v2) ∈ q) : v1 = v2 := by
  have e1 := lookupField_of_mem_nodup hnd h1
  have e2 := lookupField_of_mem_nodup hnd h2
  rw [e1] at e2
  exact e2

theorem no_plain_key_for_array {q : List (String × JVal)} {k : String}
    {xs : List JVal} (h : WFFilter q) (hk : (k, JVal.arr xs) ∈ q) :
    ∀ p ∈ flatAll q, p.1 ≠ k := by
  intro p hp hpk
  have hp1 : p.1 ∈ keysOf (flatAll q) := mem_keysOf_of_mem hp
  obtain ⟨e2, he2, hke2⟩ := mem_keys_flatAll hp1
  rw [hpk] at hke2
  have hkOK : '[' ∉ k.data := keyOK_iff.mp (h.2.1 _ hk)
  rcases e2 with ⟨k2, v2⟩
  rcases mem_keys_formatEntry hke2 with
    ⟨he, hsc⟩ | ⟨ys, hv, he⟩ | ⟨sk2, sv2, hsk2, _, he⟩
  · subst he
    have hv2 : JVal.arr xs = v2 := mem_value_eq_of_nodup h.1 hk he2
    rw [← hv2] at hsc
    simp [scalarJV] at hsc
  · exact plain_ne_arrKey hkOK he
  · exact plain_ne_objKey hkOK he

/-- C5: for every well-formed filter object and every key bound to an array
of n elements, the formatter succeeds and the query-string reading of its
output has exactly n entries for that key, all under the key suffixed with
`[]`, in the array's original element order — and no entry at all under the
unsuffixed key. -/
theorem C5_array_flattening (q : List (String × JVal)) (h : WFFilter q)
    (k : String) (xs : List JVal) (hk : (k, JVal.arr xs) ∈ q) :
    ∃ out, formatQueryParams q = .ok out
      ∧ (queryEntries out).filter (fun p => p.1 == k ++ "[]")
          = xs.map (fun x => (k ++ "[]", x))
      ∧ ((queryEntries out).filter (fun p => p.1 == k ++ "[]")).length
          = xs.length
      ∧ ∀ p ∈ out, p.1 ≠ k :=
  ⟨flatAll q, formatQueryParams_eq_flatAll h, filter_arrKey_flatAll h hk,
    by rw [filter_arrKey_flatAll h hk]; simp,
    no_plain_key_for_array h hk⟩

theorem C5_witness :
    WFFilter [("person_titles", JVal.arr [.str "ceo", .str "cto"]),
      ("q_keywords", JVal.str "apollo")]
    ∧ ∃ out, formatQueryParams
          [("person_titles", JVal.arr [.str "ceo", .str "cto"]),
           ("q_keywords", JVal.str "apollo")] = .ok out
        ∧ (queryEntries out).filter (fun p => p.1 == "person_titles" ++ "[]")
            = [JVal.str "ceo", JVal.str "cto"].map
                (fun x => ("person_titles" ++ "[]", x))
        ∧ ((queryEntries out).filter
            (fun p => p.1 == "person_titles" ++ "[]")).length
            = [JVal.str "ceo", JVal.str "cto"].length
        ∧ ∀ p ∈ out, p.1 ≠ "person_titles" :=
  ⟨by decide,
    C5_array_flattening _ (by decide) "person_titles"
      [JVal.str "ceo", JVal.str "cto"] (List.mem_cons_self _ _)⟩

/-! ## Null dropping and nested objects (C6) -/

theorem dropped_top_key {q : List (String × JVal)} {k : String}
    (h : WFFilter q) (hkOK : keyOK k = true)
    (hlk : lookupField q k = .undefined ∨ lookupField q k = .null) :
    ∀ p ∈ flatAll q, p.1 ≠ k := by
  intro p hp hpk
  have hp1 : p.1 ∈ keysOf (flatAll q) := mem_keysOf_of_mem hp
  obtain ⟨e2, he2, hke2⟩ := mem_keys_flatAll hp1
  rw [hpk] at hke2
  have hkd : '[' ∉ k.data := keyOK_iff.mp hkOK
  rcases e2 with ⟨k2, v2⟩
  rcases mem_keys_formatEntry hke2 with
    ⟨he, hsc⟩ | ⟨ys, hv, he⟩ | ⟨sk2, sv2, hsk2, _, he⟩
  · subst he
    have hl2 := lookupField_of_mem_nodup h.1 he2
    rcases hlk with hU | hN
    · have : v2 = JVal.undefined := hl2.symm.trans hU
      rw [this] at hsc
      simp [scalarJV] at hsc
    · have : v2 = JVal.null := hl2.symm.trans hN
      rw [this] at hsc
      simp [scalarJV] at hsc
  · exact plain_ne_arrKey hkd he
  · exact plain_ne_objKey hkd he

theorem dropped_sub_key {q : List (String × JVal)} {k sk : String}
    {subs : List (String × JVal)} {sv : JVal}
    (h : WFFilter q) (hk : (k, JVal.obj subs) ∈ q)
    (hsp : (sk, sv) ∈ subs) (hnl : nullish sv = true) :
    ∀ p ∈ flatAll q, p.1 ≠ k ++ "[" ++ sk ++ "]" := by
  intro p hp hpk
  have hp1 : p.1 ∈ keysOf (flatAll q) := mem_keysOf_of_mem hp
  obtain ⟨e2, he2, hke2⟩ := mem_keys_flatAll hp1
  rw [hpk] at hke2
  have hkOK : '[' ∉ k.data := keyOK_iff.mp (h.2.1 _ hk)
  rcases e2 with ⟨k2, v2⟩
  have hk2OK : '[' ∉ k2.data := keyOK_iff.mp (h.2.1 _ he2)
  have hskne : sk ≠ "" := (h.2.2 _ hk).2 (sk, sv) (by simpa [subsOf] using hsp)
  rcases mem_keys_formatEntry hke2 with
    ⟨he, hsc⟩ | ⟨ys, hv, he⟩ | ⟨sk2, sv2, hsk2, hnl2, he⟩
  · exact plain_ne_objKey hk2OK he.symm
  · exact arrKey_ne_objKey hk2OK hkOK hskne he.symm
  · obtain ⟨hkk, hss⟩ := objKey_inj hkOK hk2OK he
    subst hkk
    have hv2 : JVal.obj subs = v2 := mem_value_eq_of_nodup h.1 hk he2
    rw [← hv2] at hsk2
    simp only [subsOf] at hsk2
    subst hss
    have hsnd : (keysOf subs).Nodup := by
      simpa [subsOf] using (h.2.2 _ hk).1
    have hveq : sv = sv2 := mem_value_eq_of_nodup hsnd hsp hsk2
    rw [← hveq] at hnl2
    rw [hnl] at hnl2
    exact Bool.noConfusion hnl2

theorem countP_key_eq_one {fs : List (String × JVal)} {a : String} {b : JVal}
    (hnd : (keysOf fs).Nodup) (hm : (a, b) ∈ fs) :
    fs.countP (fun p => p.1 == a) = 1 := by
  induction fs with
  | nil => cases hm
  | cons e rest ih =>
    simp only [keysOf, List.map_cons, List.nodup_cons] at hnd
    rcases List.mem_cons.mp hm with he | hm2
    · subst he
      rw [List.countP_cons_of_pos _ _ (by simp)]
      have hz : rest.countP (fun p => p.1 == a) = 0 := by
        rw [List.countP_eq_zero]
        intro p hp hpa
        have hmm : p.1 ∈ List.map Prod.fst rest :=
          List.mem_map_of_mem Prod.fst hp
        rw [(by simpa using hpa : p.1 = a)] at hmm
        exact hnd.1 hmm
      rw [hz]
    · have hne : e.1 ≠ a := by
        intro hee
        exact hnd.1 (hee ▸ List.mem_map_of_mem Prod.fst hm2)
      rw [List.countP_cons_of_neg _ _ (by simp [hne])]
      exact ih hnd.2 hm2

theorem kept_sub_key {q : List (String × JVal)} {k sk : String}
    {subs : List (String × JVal)} {sv : JVal}
    (h : WFFilter q) (hk : (k, JVal.obj subs) ∈ q)
    (hsp : (sk, sv) ∈ subs) (hnl : nullish sv = false) :
    lookupField (flatAll q) (k ++ "[" ++ sk ++ "]") = sv
    ∧ (flatAll q).countP (fun p => p.1 == k ++ "[" ++ sk ++ "]") = 1 := by
  have hmem : (k ++ "[" ++ sk ++ "]", sv) ∈ formatEntry (k, .obj subs) := by
    apply List.mem_filterMap.mpr
    refine ⟨(sk, sv), hsp, ?_⟩
    cases sv <;> simp_all [nullish, formatEntry]
  have hin : (k ++ "[" ++ sk ++ "]", sv) ∈ flatAll q :=
    mem_flatAll_of_mem hk hmem
  have hnd := nodup_keys_flatAll h
  exact ⟨lookupField_of_mem_nodup hnd hin, countP_key_eq_one hnd hin⟩

/-- C6: on every well-formed filter object the formatter succeeds; a
top-level key whose value is absent, `undefined` or `null` contributes no
binding at all, and a key bound to a one-level nested object contributes
exactly one `parent[sub]` binding per non-nullish sub-field, carrying that
sub-field's value, while nullish sub-fields contribute nothing. -/
theorem C6_null_and_nested_flattening (q : List (String × JVal))
    (h : WFFilter q) :
    ∃ out, formatQueryParams q = .ok out
      ∧ (∀ k, keyOK k = true →
          (lookupField q k = .undefined ∨ lookupField q k = .null) →
          ∀ p ∈ out, p.1 ≠ k)
      ∧ (∀ k subs, (k, JVal.obj subs) ∈ q → ∀ sk sv, (sk, sv) ∈ subs →
          (nullish sv = true → ∀ p ∈ out, p.1 ≠ k ++ "[" ++ sk ++ "]")
          ∧ (nullish sv = false →
              lookupField out (k ++ "[" ++ sk ++ "]") = sv
              ∧ out.countP (fun p => p.1 == k ++ "[" ++ sk ++ "]") = 1)) :=
  ⟨flatAll q, formatQueryParams_eq_flatAll h,
    fun _ hkOK hlk => dropped_top_key h hkOK hlk,
    fun _ _ hk _ _ hsp =>
      ⟨fun hnl => dropped_sub_key h hk hsp hnl,
       fun hnl => kept_sub_key h hk hsp hnl⟩⟩

theorem C6_witness :
    WFFilter [("revenue_range",
        JVal.obj [("min", .num 300000), ("max", .null)]), ("x", .null)]
    ∧ ∃ out, formatQueryParams [("revenue_range",
          JVal.obj [("min", .num 300000), ("max", .null)]), ("x", .null)]
          = .ok out
        ∧ (∀ k, keyOK k = true →
            (lookupField [("revenue_range",
                JVal.obj [("min", .num 300000), ("max", .null)]),
                ("x", .null)] k = .undefined
             ∨ lookupField [("revenue_range",
                JVal.obj [("min", .num 300000), ("max", .null)]),
                ("x", .null)] k = .null) →
            ∀ p ∈ out, p.1 ≠ k)
        ∧ (∀ k subs, (k, JVal.obj subs) ∈
              [("revenue_range",
                JVal.obj [("min", .num 300000), ("max", .null)]),
               ("x", .null)] →
            ∀ sk sv, (sk, sv) ∈ subs →
            (nullish sv = true → ∀ p ∈ out, p.1 ≠ k ++ "[" ++ sk ++ "]")
            ∧ (nullish sv = false →
                lookupField out (k ++ "[" ++ sk ++ "]") = sv
                ∧ out.countP (fun p => p.1 == k ++ "[" ++ sk ++ "]") = 1)) :=
  ⟨by decide, C6_null_and_nested_flattening _ (by decide)⟩

end Apollo
